import Mathlib

/-!
Verification of the DELETE-to-TRUNCATE analyzer pass (`sql/analyzer/process_truncate.go`)
and the expression tree walker (`sql/walk.go`) of go-mysql-server.

The Go code is embedded shallowly: the catalog, databases, tables, triggers and
foreign keys become explicit data; fallible metadata lookups return `Except Err`;
the three functions `processTruncate`, `deleteToTruncate` and `validateTruncate`
are translated loop by loop (each Go `for` with early `return` becomes a
recursive helper whose result distinguishes the early exits).
-/

namespace GMS

/-- Executable rendering of Go's `strings.ToLower` on identifiers
(character-wise ASCII lowercase). -/
def sToLower (s : String) : String := String.mk (s.data.map Char.toLower)

/-- Errors surfaced by the pass.  `ioError` stands for an arbitrary
metadata-access error produced by a catalog or trigger lookup;
`tableNotFound` models `sql.ErrTableNotFound`;
`truncateReferencedFromForeignKey` models `sql.ErrTruncateReferencedFromForeignKey`;
`notTruncatable` is the failure of `plan.GetTruncatable`. -/
inductive Err where
  | ioError (msg : String)
  | tableNotFound (name : String)
  | truncateReferencedFromForeignKey (tableName : String) (fkName : String) (refTable : String)
  | notTruncatable
  deriving DecidableEq, Repr

instance instDecEqExcept {ε α : Type} [DecidableEq ε] [DecidableEq α] :
    DecidableEq (Except ε α) := fun a b =>
  match a, b with
  | .ok x, .ok y => if h : x = y then isTrue (by rw [h]) else isFalse (by simp [h])
  | .error x, .error y => if h : x = y then isTrue (by rw [h]) else isFalse (by simp [h])
  | .ok _, .error _ => isFalse (by simp)
  | .error _, .ok _ => isFalse (by simp)

/-- A column of a table schema: only the auto-increment flag matters to the pass. -/
structure Column where
  name : String
  autoIncrement : Bool
  deriving DecidableEq, Repr

/-- A foreign-key constraint: its name and the table it references
(`sql.ForeignKeyConstraint.Name` / `.ReferencedTable`). -/
structure ForeignKey where
  name : String
  referencedTable : String
  deriving DecidableEq, Repr

/-- A table as the pass sees it: name, schema, and — when the table implements
the `sql.ForeignKeyTable` capability — the (fallible) result of `GetForeignKeys`.
`foreignKeys = none` means the capability is absent. -/
structure Table where
  name : String
  schema : List Column
  foreignKeys : Option (Except Err (List ForeignKey))
  deriving DecidableEq, Repr

/-- Plan nodes, restricted to the variants the pass inspects. -/
inductive Node where
  | deleteFrom (child : Node)
  | truncate (dbName : String) (child : Node)
  | resolvedTable (table : Table)
  | unresolvedTable (name : String) (database : String)
  | other
  deriving DecidableEq, Repr

/-- Trigger firing events (`sqlparser.InsertStr` / `UpdateStr` / `DeleteStr`). -/
inductive TriggerEvent where
  | insert
  | update
  | delete
  deriving DecidableEq, Repr

/-- A trigger: its firing event and its target-table plan node
(`TriggerInfo.TriggerEvent` / `.Table`).  The target is a plan node; the pass
only knows how to read it when it is an `UnresolvedTable`. -/
structure Trigger where
  triggerEvent : TriggerEvent
  table : Node
  deriving DecidableEq, Repr

/-- A database of the catalog: its name, the fallible `GetTableNames` result,
the fallible case-insensitive table fetch `GetTableInsensitive`, and the
fallible sequence of triggers defined on it. -/
structure Database where
  name : String
  tableNames : Except Err (List String)
  getTableInsensitive : String → Except Err (Option Table)
  triggers : Except Err (List Trigger)

/-- The analyzer, reduced to what the pass uses: its catalog
(`a.Catalog.AllDatabases()`). -/
structure Analyzer where
  catalog : List Database

/-- The session context, reduced to what the pass uses:
`ctx.GetCurrentDatabase()`. -/
structure Context where
  currentDatabase : String

/-- Modelled from the spec: the trigger-source collaborator
(`loadTriggersFromDb`, analyzer code not under `src/`) returns the database's
sequence of triggers and may fail with a metadata-access error. -/
def loadTriggersFromDb (db : Database) : Except Err (List Trigger) := db.triggers

/-- Modelled from the spec: `plan.GetTruncatable` (plan-package code not under
`src/`) resolves a truncatable representation of the node, failing when the
node is not a kind that supports truncation; a Resolved Table is the
truncatable kind relevant here. -/
def GetTruncatable : Node → Except Err Table
  | Node.resolvedTable t => Except.ok t
  | _ => Except.error Err.notTruncatable

/-- The case-insensitive identifier match used throughout the pass:
the candidate is lowered and compared with an already-lowered target. -/
def matchesName (target n : String) : Bool := sToLower n == target

/-- Inner loop of `deleteToTruncate`'s database scan (lines 53-62): walks one
database's table names updating the `(tblFound, dbName)` state, where
`none` is "not found yet" and `some d` is "found in database `d`";
`Sum.inl ()` is the early `return deletePlan` on a second match. -/
def scanNames (tblName dbName : String) : List String → Option String → Sum Unit (Option String)
  | [], st => Sum.inr st
  | n :: rest, st =>
    if matchesName tblName n then
      match st with
      | none => scanNames tblName dbName rest (some dbName)
      | some _ => Sum.inl ()
    else
      scanNames tblName dbName rest st

/-- Outer loop of `deleteToTruncate`'s database scan (lines 48-63): propagates
`GetTableNames` errors, aborts with `Sum.inl ()` on ambiguity, otherwise
threads the found-state through all databases. -/
def scanDbs (tblName : String) : List Database → Option String → Except Err (Sum Unit (Option String))
  | [], st => Except.ok (Sum.inr st)
  | db :: rest, st =>
    match db.tableNames with
    | Except.error e => Except.error e
    | Except.ok names =>
      match scanNames tblName db.name names st with
      | Sum.inl () => Except.ok (Sum.inl ())
      | Sum.inr st' => scanDbs tblName rest st'

/-- The condition of lines 83-85: the delete trigger's unresolved target
matches the target table, and its database qualifier matches — unqualified
targets are matched against the owning database by exact string equality
(`db.Name() == dbName`), qualified ones case-insensitively. -/
def triggerMatches (tblName dbName dbNameLower dbOwnName nm qual : String) : Bool :=
  matchesName tblName nm &&
    ((qual == "" && dbOwnName == dbName) || sToLower qual == dbNameLower)

/-- Inner loop over one database's triggers (lines 74-89): non-delete events
are skipped; a delete trigger whose target is not an `UnresolvedTable` aborts
(`true`), as does one whose target matches the table being deleted from. -/
def triggersBlock (tblName dbName dbNameLower dbOwnName : String) : List Trigger → Bool
  | [] => false
  | tr :: rest =>
    if tr.triggerEvent ≠ TriggerEvent.delete then
      triggersBlock tblName dbName dbNameLower dbOwnName rest
    else
      match tr.table with
      | Node.unresolvedTable nm qual =>
        if triggerMatches tblName dbName dbNameLower dbOwnName nm qual then
          true
        else
          triggersBlock tblName dbName dbNameLower dbOwnName rest
      | _ => true

/-- Outer loop over every database's triggers (lines 69-90): trigger-load
errors propagate; a blocking trigger ends the scan with `true`. -/
def checkAllTriggers (tblName dbName dbNameLower : String) : List Database → Except Err Bool
  | [] => Except.ok false
  | db :: rest =>
    match loadTriggersFromDb db with
    | Except.error e => Except.error e
    | Except.ok ts =>
      if triggersBlock tblName dbName dbNameLower db.name ts then
        Except.ok true
      else
        checkAllTriggers tblName dbName dbNameLower rest

/-- Foreign-key loop of `validateTruncate` (lines 146-150): the first key whose
referenced table matches the target yields the referenced-from-foreign-key
error. -/
def checkFks (tableName tableNameToCheck : String) : List ForeignKey → Option Err
  | [] => none
  | fk :: rest =>
    if matchesName tableName fk.referencedTable then
      some (Err.truncateReferencedFromForeignKey tableName fk.name tableNameToCheck)
    else
      checkFks tableName tableNameToCheck rest

/-- Table loop of `validateTruncate` (lines 129-152): the target table's own
name is skipped; lookup failures and not-found tables return with flag `true`;
a matching foreign key returns with flag `false`.  `none` means the loop ran to
completion. -/
def checkTables (db : Database) (tableName : String) : List String → Option (Bool × Err)
  | [] => none
  | nm :: rest =>
    if matchesName tableName nm then
      checkTables db tableName rest
    else
      match db.getTableInsensitive nm with
      | Except.error e => some (true, e)
      | Except.ok none => some (true, Err.tableNotFound nm)
      | Except.ok (some tbl) =>
        match tbl.foreignKeys with
        | none => checkTables db tableName rest
        | some (Except.error e) => some (true, e)
        | some (Except.ok fks) =>
          match checkFks tableName nm fks with
          | some e => some (false, e)
          | none => checkTables db tableName rest

/-- Database loop of `validateTruncate` (lines 119-153): databases whose
lowered name differs from the (lowered) target database are skipped;
`GetTableNames` failures return with flag `true`. -/
def checkDbs (dbName tableName : String) : List Database → Option (Bool × Err)
  | [] => none
  | db :: rest =>
    if sToLower db.name ≠ dbName then
      checkDbs dbName tableName rest
    else
      match db.tableNames with
      | Except.error e => some (true, e)
      | Except.ok names =>
        match checkTables db tableName names with
        | some r => some r
        | none => checkDbs dbName tableName rest

/-- Database-name normalization of `validateTruncate` (lines 113-117): an
empty qualifier falls back to the session's current database; either way the
result is lowered. -/
def normalizedDbName (ctx : Context) (dbName : String) : String :=
  if dbName == "" then sToLower ctx.currentDatabase else sToLower dbName

/-- Function `validateTruncate` (lines 107-156): resolves a truncatable table, lowers
the table name, falls back to the session's current database when the
qualifier is empty, and scans the matching databases for conflicting foreign
keys.  The result is the Go `(bool, error)` pair. -/
def validateTruncate (ctx : Context) (a : Analyzer) (dbName : String) (tbl : Node) :
    Bool × Option Err :=
  match GetTruncatable tbl with
  | Except.error e => (false, some e)
  | Except.ok truncatable =>
    let tableName := sToLower truncatable.name
    let dbName2 := normalizedDbName ctx dbName
    match checkDbs dbName2 tableName a.catalog with
    | some (b, e) => (b, some e)
    | none => (true, none)

/-- Function `deleteToTruncate` (lines 31-100), applied to the child of the
`DeleteFrom` node.  Returns the original `DeleteFrom` on every
non-applicability condition, a fresh `Truncate` bound to the matched
database's name on success, and propagates lookup errors. -/
def deleteToTruncate (ctx : Context) (a : Analyzer) (child : Node) : Except Err Node :=
  let deletePlan := Node.deleteFrom child
  match child with
  | Node.resolvedTable tbl =>
    let tblName := sToLower tbl.name
    if tbl.schema.any (fun col => col.autoIncrement) then
      Except.ok deletePlan
    else
      match scanDbs tblName a.catalog none with
      | Except.error e => Except.error e
      | Except.ok (Sum.inl ()) => Except.ok deletePlan
      | Except.ok (Sum.inr none) => Except.ok deletePlan
      | Except.ok (Sum.inr (some dbName)) =>
        let dbNameLower := sToLower dbName
        match checkAllTriggers tblName dbName dbNameLower a.catalog with
        | Except.error e => Except.error e
        | Except.ok true => Except.ok deletePlan
        | Except.ok false =>
          match validateTruncate ctx a dbNameLower (Node.resolvedTable tbl) with
          | (true, some e) => Except.error e
          | (true, none) => Except.ok (Node.truncate dbName (Node.resolvedTable tbl))
          | (false, _) => Except.ok deletePlan
  | _ => Except.ok deletePlan

/-- Function `processTruncate` (lines 12-29): dispatch on the node kind.  A
`DeleteFrom` goes to the rewrite attempt, a `Truncate` is validated (any
error propagates, the node itself is returned on success), anything else
passes through. -/
def processTruncate (ctx : Context) (a : Analyzer) (n : Node) : Except Err Node :=
  match n with
  | Node.deleteFrom child => deleteToTruncate ctx a child
  | Node.truncate dbName child =>
    match validateTruncate ctx a dbName child with
    | (_, some e) => Except.error e
    | (_, none) => Except.ok (Node.truncate dbName child)
  | _ => Except.ok n

/-- Expressions for the tree walker (`sql/walk.go`): a self-describing tree
exposing its ordered children; the label stands for everything else an
expression carries. -/
inductive Expression where
  | node (label : Nat) (children : List Expression)

/-- A table whose foreign-key metadata, if present, loads successfully and
contains no key referencing the (lowered) target name. -/
def fkClean (tableName : String) (tbl : Table) : Prop :=
  tbl.foreignKeys = none ∨
    ∃ fks, tbl.foreignKeys = some (Except.ok fks) ∧
      ∀ fk ∈ fks, matchesName tableName fk.referencedTable = false

/-- A table whose foreign-key metadata, if present, loads successfully. -/
def fkSane (tbl : Table) : Prop :=
  tbl.foreignKeys = none ∨ ∃ fks, tbl.foreignKeys = some (Except.ok fks)

/-- A table name (other than the target) whose table holds a foreign key
referencing the (lowered) target name. -/
def offender (db : Database) (tableName nm : String) : Prop :=
  matchesName tableName nm = false ∧
    ∃ tbl fks fk, db.getTableInsensitive nm = Except.ok (some tbl) ∧
      tbl.foreignKeys = some (Except.ok fks) ∧ fk ∈ fks ∧
      matchesName tableName fk.referencedTable = true

/-- A database whose table-name listing succeeds and contains no name matching
the (lowered) target. -/
def tableNamesOkZero (t : String) (db : Database) : Prop :=
  ∃ ns, db.tableNames = Except.ok ns ∧ ∀ n ∈ ns, matchesName t n = false

/-- A database whose table-name listing succeeds and contains at least one
name matching the (lowered) target. -/
def tableNamesOkPos (t : String) (db : Database) : Prop :=
  ∃ ns, db.tableNames = Except.ok ns ∧ ∃ n ∈ ns, matchesName t n = true

/-- A database whose table-name listing succeeds and contains exactly one
name matching the (lowered) target. -/
def tableNamesUnique (t : String) (db : Database) : Prop :=
  ∃ ns1 n0 ns2, db.tableNames = Except.ok (ns1 ++ n0 :: ns2) ∧
    matchesName t n0 = true ∧
    (∀ n ∈ ns1, matchesName t n = false) ∧ (∀ n ∈ ns2, matchesName t n = false)

/-- A database whose triggers load successfully and whose delete-event
triggers all have statically resolvable, non-matching targets. -/
def triggersOkClean (tblName dbName dbNameLower : String) (db : Database) : Prop :=
  ∃ ts, db.triggers = Except.ok ts ∧
    ∀ tr ∈ ts, tr.triggerEvent = TriggerEvent.delete →
      ∃ nm q, tr.table = Node.unresolvedTable nm q ∧
        triggerMatches tblName dbName dbNameLower db.name nm q = false

/-- A trigger that blocks the rewrite: a delete-event trigger whose target is
either not an unresolved-table reference, or one matching the target table. -/
def problematicTrigger (tblName dbName dbNameLower own : String) (tr : Trigger) : Prop :=
  tr.triggerEvent = TriggerEvent.delete ∧
    ((∀ nm q, tr.table ≠ Node.unresolvedTable nm q) ∨
      ∃ nm q, tr.table = Node.unresolvedTable nm q ∧
        triggerMatches tblName dbName dbNameLower own nm q = true)

/-- A database whose table listing succeeds and whose non-target tables all
resolve, with clean foreign keys: the shape under which `validateTruncate`
finds nothing to complain about. -/
def dbFkClean (tableName : String) (db : Database) : Prop :=
  ∃ ns, db.tableNames = Except.ok ns ∧
    ∀ nm ∈ ns, matchesName tableName nm = false →
      ∃ tbl, db.getTableInsensitive nm = Except.ok (some tbl) ∧ fkClean tableName tbl

/-- A database whose table listing succeeds and whose non-target tables all
resolve with loadable foreign-key metadata (which may or may not conflict). -/
def dbResolvable (tableName : String) (db : Database) : Prop :=
  ∃ ns, db.tableNames = Except.ok ns ∧
    ∀ nm ∈ ns, matchesName tableName nm = false →
      ∃ tbl, db.getTableInsensitive nm = Except.ok (some tbl) ∧ fkSane tbl

mutual

/-- Function `Walk` (walk.go lines 17-27), instrumented with its call trace: visitors
are a state type `σ` with transition `visit`, where `visit v (some e)` is Go's
`v.Visit(e)` (returning `none` for a nil continuation) and `visit v none` is
the post-order sentinel call `v.Visit(nil)`.  The result lists every `Visit`
call `(receiver, argument)` in order. -/
def Walk {σ : Type} (visit : σ → Option Expression → Option σ) (v : σ) :
    Expression → List (σ × Option Expression)
  | Expression.node l cs =>
    match visit v (some (Expression.node l cs)) with
    | none => [(v, some (Expression.node l cs))]
    | some v2 =>
      (v, some (Expression.node l cs)) :: (walkChildren visit v2 cs ++ [(v2, none)])

/-- The `for _, child := range expr.Children()` loop of `Walk`: each child is
walked with the same continuation visitor. -/
def walkChildren {σ : Type} (visit : σ → Option Expression → Option σ) (v : σ) :
    List Expression → List (σ × Option Expression)
  | [] => []
  | c :: rest => Walk visit v c ++ walkChildren visit v rest

end

/-! Concrete catalogs, tables and trees instantiating the theorems below. -/

/-- A plain table with no auto-increment column and no foreign-key capability. -/
def tOrders : Table := ⟨"orders", [⟨"id", false⟩], none⟩

/-- A table holding the foreign key named fk1 that references the orders table. -/
def tItems : Table := ⟨"order_items", [⟨"id", false⟩], some (Except.ok [⟨"fk1", "orders"⟩])⟩

/-- A table whose only foreign key references an unrelated table. -/
def tCustomers : Table := ⟨"customers", [⟨"id", false⟩], some (Except.ok [⟨"fk2", "people"⟩])⟩

/-- A table with an auto-increment column. -/
def tAuto : Table := ⟨"gadgets", [⟨"id", true⟩, ⟨"n", false⟩], none⟩

/-- A bare table named t. -/
def tT : Table := ⟨"t", [], none⟩

/-- A table named t holding a self-referencing foreign key. -/
def tSelf : Table := ⟨"t", [], some (Except.ok [⟨"fkself", "t"⟩])⟩

/-- Database sales with the orders table, a clean customers table and an
insert-event trigger on orders. -/
def dbClean : Database :=
  ⟨"sales", Except.ok ["orders", "customers"],
    fun n =>
      if n == "orders" then Except.ok (some tOrders)
      else if n == "customers" then Except.ok (some tCustomers)
      else Except.ok none,
    Except.ok [⟨TriggerEvent.insert, Node.unresolvedTable "orders" ""⟩]⟩

/-- Database sales in which order_items references orders through fk1. -/
def dbSales : Database :=
  ⟨"sales", Except.ok ["orders", "order_items"],
    fun n =>
      if n == "orders" then Except.ok (some tOrders)
      else if n == "order_items" then Except.ok (some tItems)
      else Except.ok none,
    Except.ok []⟩

/-- Database sales holding only the table t. -/
def dbT : Database := ⟨"sales", Except.ok ["t"], fun _ => Except.ok none, Except.ok []⟩

/-- A database named SALES — differing from sales only in case — holding an
unqualified delete-event trigger on t and no tables. -/
def dbTrigUpper : Database :=
  ⟨"SALES", Except.ok [], fun _ => Except.ok none,
    Except.ok [⟨TriggerEvent.delete, Node.unresolvedTable "t" ""⟩]⟩

/-- A database named sales holding an unqualified delete-event trigger on t
and no tables. -/
def dbTrigExact : Database :=
  ⟨"sales", Except.ok [], fun _ => Except.ok none,
    Except.ok [⟨TriggerEvent.delete, Node.unresolvedTable "t" ""⟩]⟩

/-- A database holding a delete-event trigger whose target is not an
unresolved-table reference. -/
def dbTrigBlob : Database :=
  ⟨"elsewhere", Except.ok [], fun _ => Except.ok none,
    Except.ok [⟨TriggerEvent.delete, Node.other⟩]⟩

/-- A database whose table-name listing fails. -/
def dbErrNames : Database :=
  ⟨"broken", Except.error (Err.ioError "disk"), fun _ => Except.ok none, Except.ok []⟩

/-- A database whose trigger loading fails. -/
def dbErrTriggers : Database :=
  ⟨"trigbroken", Except.ok [], fun _ => Except.ok none,
    Except.error (Err.ioError "trigload")⟩

/-- A database listing tables t and u whose fetch of u fails. -/
def dbErrLookup : Database :=
  ⟨"look", Except.ok ["t", "u"],
    fun n => if n == "u" then Except.error (Err.ioError "fetch") else Except.ok none,
    Except.ok []⟩

/-- A database listing the single table u whose fetch of u fails. -/
def dbErrLookup1 : Database :=
  ⟨"look1", Except.ok ["u"],
    fun n => if n == "u" then Except.error (Err.ioError "fetch") else Except.ok none,
    Except.ok []⟩

/-- A database listing only the target table t, whose table fetch always
fails: only a scan that skips the target's own name avoids the failure. -/
def dbSelf : Database :=
  ⟨"d1", Except.ok ["t"], fun _ => Except.error (Err.ioError "nope"), Except.ok []⟩

/-- A database listing two table names that differ only in case, both
matching the target t case-insensitively. -/
def dbDup : Database := ⟨"x", Except.ok ["T", "t"], fun _ => Except.ok none, Except.ok []⟩

/-- Database a holding a table named t. -/
def dbA : Database := ⟨"a", Except.ok ["t"], fun _ => Except.ok none, Except.ok []⟩

/-- Database b also holding a table named t. -/
def dbB : Database := ⟨"b", Except.ok ["t"], fun _ => Except.ok none, Except.ok []⟩

/-- A session with no current database. -/
def ctx0 : Context := ⟨""⟩

/-- A session whose current database is sales. -/
def ctxSales : Context := ⟨"sales"⟩

/-- A countdown visitor: positive states descend with a decremented state,
state zero prunes, sentinel calls keep the state. -/
def wVisit : Nat → Option Expression → Option Nat := fun s e =>
  match e with
  | none => some s
  | some _ => if s = 0 then none else some (s - 1)

/-- A leaf expression. -/
def wLeaf1 : Expression := Expression.node 2 []

/-- Another leaf expression. -/
def wLeaf2 : Expression := Expression.node 3 []

/-- An inner expression with one child. -/
def wInner : Expression := Expression.node 1 [wLeaf1]

/-- The root of the sample tree: its children are the inner node and a leaf. -/
def wTree : Expression := Expression.node 0 [wInner, wLeaf2]

theorem toNat_ofNat_small {n : Nat} (h : n < 55296) : (Char.ofNat n).toNat = n := by
  unfold Char.ofNat
  rw [dif_pos (Or.inl h)]
  rfl

theorem charToLower_idem (c : Char) : c.toLower.toLower = c.toLower := by
  unfold Char.toLower
  by_cases h : c.toNat ≥ 65 ∧ c.toNat ≤ 90
  · rw [if_pos h]
    have hv : (Char.ofNat (c.toNat + 32)).toNat = c.toNat + 32 :=
      toNat_ofNat_small (by omega)
    rw [if_neg (by rw [hv]; omega)]
  · rw [if_neg h, if_neg h]

theorem sToLower_idem (s : String) : sToLower (sToLower s) = sToLower s := by
  unfold sToLower
  rw [List.map_map]
  congr 1
  exact List.map_congr_left (fun c _ => charToLower_idem c)

theorem scanNames_zero {t d : String} {ns : List String} (st : Option String)
    (h : ∀ n ∈ ns, matchesName t n = false) : scanNames t d ns st = Sum.inr st := by
  induction ns with
  | nil => rfl
  | cons n rest ih =>
    have hm : matchesName t n = false := h n (by simp)
    simpa [scanNames, hm] using ih (fun m hmem => h m (by simp [hmem]))

theorem scanNames_some_cases {t d x : String} (ns : List String) :
    scanNames t d ns (some x) = Sum.inl () ∨ scanNames t d ns (some x) = Sum.inr (some x) := by
  induction ns with
  | nil => exact Or.inr rfl
  | cons n rest ih =>
    cases hm : matchesName t n with
    | false => simpa [scanNames, hm] using ih
    | true => simp [scanNames, hm]

theorem scanNames_pos_some {t d x : String} {ns : List String}
    (h : ∃ n ∈ ns, matchesName t n = true) : scanNames t d ns (some x) = Sum.inl () := by
  induction ns with
  | nil => simp at h
  | cons n rest ih =>
    cases hm : matchesName t n with
    | false =>
      obtain ⟨m, hmem, hmt⟩ := h
      rcases List.mem_cons.mp hmem with rfl | hmem2
      · rw [hm] at hmt; cases hmt
      · simpa [scanNames, hm] using ih ⟨m, hmem2, hmt⟩
    | true => simp [scanNames, hm]

theorem scanNames_unique {t d : String} {ns1 ns2 : List String} {n0 : String}
    (h1 : ∀ n ∈ ns1, matchesName t n = false) (h0 : matchesName t n0 = true)
    (h2 : ∀ n ∈ ns2, matchesName t n = false) :
    scanNames t d (ns1 ++ n0 :: ns2) none = Sum.inr (some d) := by
  induction ns1 with
  | nil => simp only [List.nil_append, scanNames, h0, if_true]; exact scanNames_zero _ h2
  | cons n rest ih =>
    have hm : matchesName t n = false := h1 n (by simp)
    simpa [scanNames, hm] using ih (fun m hmem => h1 m (by simp [hmem]))

theorem scanNames_pos_none {t d : String} {ns : List String}
    (h : ∃ n ∈ ns, matchesName t n = true) :
    scanNames t d ns none = Sum.inl () ∨ scanNames t d ns none = Sum.inr (some d) := by
  induction ns with
  | nil => simp at h
  | cons n rest ih =>
    cases hm : matchesName t n with
    | false =>
      obtain ⟨m, hmem, hmt⟩ := h
      rcases List.mem_cons.mp hmem with rfl | hmem2
      · rw [hm] at hmt; cases hmt
      · simpa [scanNames, hm] using ih ⟨m, hmem2, hmt⟩
    | true =>
      simp only [scanNames, hm, if_true]
      exact scanNames_some_cases rest

theorem scanDbs_append_zero {t : String} {pre rest : List Database}
    (h : ∀ db ∈ pre, tableNamesOkZero t db) (st : Option String) :
    scanDbs t (pre ++ rest) st = scanDbs t rest st := by
  induction pre with
  | nil => rfl
  | cons db pre ih =>
    obtain ⟨ns, hok, hz⟩ := h db (by simp)
    simp only [List.cons_append, scanDbs, hok, scanNames_zero st hz]
    exact ih (fun d hd => h d (by simp [hd]))

theorem scanDbs_zero {t : String} {l : List Database}
    (h : ∀ db ∈ l, tableNamesOkZero t db) (st : Option String) :
    scanDbs t l st = Except.ok (Sum.inr st) := by
  induction l with
  | nil => rfl
  | cons db rest ih =>
    obtain ⟨ns, hok, hz⟩ := h db (by simp)
    simp only [scanDbs, hok, scanNames_zero st hz]
    exact ih (fun d hd => h d (by simp [hd]))

theorem scanDbs_unique {t : String} {pre post : List Database} {d : Database}
    (hpre : ∀ db ∈ pre, tableNamesOkZero t db)
    (hpost : ∀ db ∈ post, tableNamesOkZero t db)
    (hd : tableNamesUnique t d) :
    scanDbs t (pre ++ d :: post) none = Except.ok (Sum.inr (some d.name)) := by
  rw [scanDbs_append_zero hpre]
  obtain ⟨ns1, n0, ns2, hok, h0, h1, h2⟩ := hd
  simp only [scanDbs, hok, scanNames_unique h1 h0 h2]
  exact scanDbs_zero hpost _

theorem scanDbs_ambiguous {t : String} {pre mid post : List Database} {d1 d2 : Database}
    (hpre : ∀ db ∈ pre, tableNamesOkZero t db)
    (hmid : ∀ db ∈ mid, tableNamesOkZero t db)
    (h1 : tableNamesOkPos t d1) (h2 : tableNamesOkPos t d2) :
    scanDbs t (pre ++ d1 :: (mid ++ d2 :: post)) none = Except.ok (Sum.inl ()) := by
  rw [scanDbs_append_zero hpre]
  obtain ⟨ns, hok, hpos⟩ := h1
  simp only [scanDbs, hok]
  rcases scanNames_pos_none hpos with hcase | hcase
  · rw [hcase]
  · rw [hcase]
    show scanDbs t (mid ++ d2 :: post) (some d1.name) = Except.ok (Sum.inl ())
    rw [scanDbs_append_zero hmid]
    obtain ⟨ms, hok2, hpos2⟩ := h2
    simp only [scanDbs, hok2, scanNames_pos_some hpos2]

theorem triggersBlock_false {tblName dbName dbNameLower own : String} {ts : List Trigger}
    (h : ∀ tr ∈ ts, tr.triggerEvent = TriggerEvent.delete →
      ∃ nm q, tr.table = Node.unresolvedTable nm q ∧
        triggerMatches tblName dbName dbNameLower own nm q = false) :
    triggersBlock tblName dbName dbNameLower own ts = false := by
  induction ts with
  | nil => rfl
  | cons tr rest ih =>
    by_cases he : tr.triggerEvent = TriggerEvent.delete
    · obtain ⟨nm, q, htbl, hm⟩ := h tr (by simp) he
      simp only [triggersBlock, he, ne_eq, not_true_eq_false, if_false, htbl, hm,
        Bool.false_eq_true, if_false]
      exact ih (fun m hmem hev => h m (by simp [hmem]) hev)
    · simp only [triggersBlock, if_pos he]
      exact ih (fun m hmem hev => h m (by simp [hmem]) hev)

theorem triggersBlock_true {tblName dbName dbNameLower own : String} {ts : List Trigger}
    (h : ∃ tr ∈ ts, problematicTrigger tblName dbName dbNameLower own tr) :
    triggersBlock tblName dbName dbNameLower own ts = true := by
  induction ts with
  | nil => simp at h
  | cons tr rest ih =>
    obtain ⟨tr0, hmem, hprob⟩ := h
    by_cases he : tr.triggerEvent = TriggerEvent.delete
    · by_cases hex : ∃ nm q, tr.table = Node.unresolvedTable nm q
      · obtain ⟨nm, q, htbl⟩ := hex
        cases hm : triggerMatches tblName dbName dbNameLower own nm q with
        | true => simp [triggersBlock, he, htbl, hm]
        | false =>
          rcases List.mem_cons.mp hmem with rfl | hmem2
          · obtain ⟨he0, hcase⟩ := hprob
            rcases hcase with hnone | ⟨nm2, q2, htbl2, hm2⟩
            · exact absurd htbl (hnone nm q)
            · rw [htbl] at htbl2
              injection htbl2 with e1 e2
              subst e1; subst e2
              rw [hm2] at hm; cases hm
          · simp only [triggersBlock, he, ne_eq, not_true_eq_false, if_false, htbl, hm,
              Bool.false_eq_true, if_false]
            exact ih ⟨tr0, hmem2, hprob⟩
      · cases htbl : tr.table with
        | unresolvedTable nm q => exact absurd ⟨nm, q, htbl⟩ hex
        | deleteFrom c => simp [triggersBlock, he, htbl]
        | truncate dn c => simp [triggersBlock, he, htbl]
        | resolvedTable tb => simp [triggersBlock, he, htbl]
        | other => simp [triggersBlock, he, htbl]
    · rcases List.mem_cons.mp hmem with rfl | hmem2
      · exact absurd hprob.1 he
      · simp only [triggersBlock, if_pos he]
        exact ih ⟨tr0, hmem2, hprob⟩

theorem checkAllTriggers_false {tblName dbName dbNameLower : String} {l : List Database}
    (h : ∀ db ∈ l, triggersOkClean tblName dbName dbNameLower db) :
    checkAllTriggers tblName dbName dbNameLower l = Except.ok false := by
  induction l with
  | nil => rfl
  | cons db rest ih =>
    obtain ⟨ts, hok, hclean⟩ := h db (by simp)
    simp only [checkAllTriggers, loadTriggersFromDb, hok, triggersBlock_false hclean,
      Bool.false_eq_true, if_false]
    exact ih (fun m hmem => h m (by simp [hmem]))

theorem checkAllTriggers_ok {tblName dbName dbNameLower : String} {l : List Database}
    (h : ∀ db ∈ l, ∃ ts, db.triggers = Except.ok ts) :
    ∃ b, checkAllTriggers tblName dbName dbNameLower l = Except.ok b := by
  induction l with
  | nil => exact ⟨false, rfl⟩
  | cons db rest ih =>
    obtain ⟨ts, hok⟩ := h db (by simp)
    cases hb : triggersBlock tblName dbName dbNameLower db.name ts with
    | true => exact ⟨true, by simp [checkAllTriggers, loadTriggersFromDb, hok, hb]⟩
    | false =>
      obtain ⟨b, hrec⟩ := ih (fun m hmem => h m (by simp [hmem]))
      exact ⟨b, by simp [checkAllTriggers, loadTriggersFromDb, hok, hb, hrec]⟩

theorem checkAllTriggers_true {tblName dbName dbNameLower : String} {l : List Database}
    (hok : ∀ db ∈ l, ∃ ts, db.triggers = Except.ok ts)
    (h : ∃ db ∈ l, ∃ ts, db.triggers = Except.ok ts ∧
      ∃ tr ∈ ts, problematicTrigger tblName dbName dbNameLower db.name tr) :
    checkAllTriggers tblName dbName dbNameLower l = Except.ok true := by
  induction l with
  | nil => simp at h
  | cons db rest ih =>
    obtain ⟨ts, hts⟩ := hok db (by simp)
    cases hb : triggersBlock tblName dbName dbNameLower db.name ts with
    | true => simp [checkAllTriggers, loadTriggersFromDb, hts, hb]
    | false =>
      obtain ⟨db0, hmem, ts0, hts0, hprob⟩ := h
      rcases List.mem_cons.mp hmem with rfl | hmem2
      · rw [hts] at hts0
        injection hts0 with e; subst e
        rw [triggersBlock_true hprob] at hb; cases hb
      · simp only [checkAllTriggers, loadTriggersFromDb, hts, hb, Bool.false_eq_true, if_false]
        exact ih (fun m hmem => hok m (by simp [hmem])) ⟨db0, hmem2, ts0, hts0, hprob⟩

theorem checkFks_none {tableName nm : String} {fks : List ForeignKey}
    (h : ∀ fk ∈ fks, matchesName tableName fk.referencedTable = false) :
    checkFks tableName nm fks = none := by
  induction fks with
  | nil => rfl
  | cons fk rest ih =>
    have hm : matchesName tableName fk.referencedTable = false := h fk (by simp)
    simpa [checkFks, hm] using ih (fun m hmem => h m (by simp [hmem]))

theorem checkFks_eq_none {tableName nm : String} {fks : List ForeignKey}
    (h : checkFks tableName nm fks = none) :
    ∀ fk ∈ fks, matchesName tableName fk.referencedTable = false := by
  induction fks with
  | nil => simp
  | cons fk rest ih =>
    cases hm : matchesName tableName fk.referencedTable with
    | true => simp [checkFks, hm] at h
    | false =>
      simp only [checkFks, hm, Bool.false_eq_true, if_false] at h
      intro m hmem
      rcases List.mem_cons.mp hmem with rfl | hmem2
      · exact hm
      · exact ih h m hmem2

theorem checkFks_some {tableName nm : String} {fks : List ForeignKey} {e : Err}
    (h : checkFks tableName nm fks = some e) :
    ∃ fk, fk ∈ fks ∧ matchesName tableName fk.referencedTable = true ∧
      e = Err.truncateReferencedFromForeignKey tableName fk.name nm := by
  induction fks with
  | nil => simp [checkFks] at h
  | cons fk rest ih =>
    cases hm : matchesName tableName fk.referencedTable with
    | true =>
      simp only [checkFks, hm, if_true] at h
      injection h with h2
      exact ⟨fk, by simp, hm, h2.symm⟩
    | false =>
      simp only [checkFks, hm, Bool.false_eq_true, if_false] at h
      obtain ⟨fk0, hmem, hmt, he⟩ := ih h
      exact ⟨fk0, by simp [hmem], hmt, he⟩

theorem checkTables_none {db : Database} {tableName : String} {ns : List String}
    (h : ∀ nm ∈ ns, matchesName tableName nm = false →
      ∃ tbl, db.getTableInsensitive nm = Except.ok (some tbl) ∧ fkClean tableName tbl) :
    checkTables db tableName ns = none := by
  induction ns with
  | nil => rfl
  | cons nm rest ih =>
    have hrest := ih (fun m hmem hm => h m (by simp [hmem]) hm)
    cases hm : matchesName tableName nm with
    | true => simpa [checkTables, hm] using hrest
    | false =>
      obtain ⟨tbl, hok, hclean⟩ := h nm (by simp) hm
      rcases hclean with hnone | ⟨fks, hfks, hall⟩
      · simpa [checkTables, hm, hok, hnone] using hrest
      · simpa [checkTables, hm, hok, hfks, checkFks_none hall] using hrest

theorem checkTables_offender {db : Database} {tableName : String} {ns : List String}
    (hres : ∀ nm ∈ ns, matchesName tableName nm = false →
      ∃ tbl, db.getTableInsensitive nm = Except.ok (some tbl) ∧ fkSane tbl)
    (hoff : ∃ nm ∈ ns, offender db tableName nm) :
    ∃ c u, u ∈ ns ∧ offender db tableName u ∧
      checkTables db tableName ns
        = some (false, Err.truncateReferencedFromForeignKey tableName c u) := by
  induction ns with
  | nil => simp at hoff
  | cons nm rest ih =>
    cases hm : matchesName tableName nm with
    | true =>
      obtain ⟨m, hmem, hoffm⟩ := hoff
      rcases List.mem_cons.mp hmem with rfl | hmem2
      · rw [hoffm.1] at hm; cases hm
      · obtain ⟨c, u, hu, houf, heq⟩ :=
          ih (fun m2 hmem2 hm2 => hres m2 (by simp [hmem2]) hm2) ⟨m, hmem2, hoffm⟩
        exact ⟨c, u, by simp [hu], houf, by simpa [checkTables, hm] using heq⟩
    | false =>
      obtain ⟨tbl, hok, hsane⟩ := hres nm (by simp) hm
      rcases hsane with hnone | ⟨fks, hfks⟩
      · obtain ⟨m, hmem, hoffm⟩ := hoff
        rcases List.mem_cons.mp hmem with rfl | hmem2
        · obtain ⟨_, tbl2, fks2, fk2, hok2, hfks2, _, _⟩ := hoffm
          rw [hok] at hok2
          injection hok2 with e1
          injection e1 with e2
          rw [← e2] at hfks2
          rw [hnone] at hfks2; cases hfks2
        · obtain ⟨c, u, hu, houf, heq⟩ :=
            ih (fun m2 hmem2 hm2 => hres m2 (by simp [hmem2]) hm2) ⟨m, hmem2, hoffm⟩
          exact ⟨c, u, by simp [hu], houf, by simpa [checkTables, hm, hok, hnone] using heq⟩
      · cases hcf : checkFks tableName nm fks with
        | some e =>
          obtain ⟨fk0, hfkmem, hfkmt, he⟩ := checkFks_some hcf
          refine ⟨fk0.name, nm, by simp, ⟨hm, tbl, fks, fk0, hok, hfks, hfkmem, hfkmt⟩, ?_⟩
          rw [he] at hcf
          simp [checkTables, hm, hok, hfks, hcf]
        | none =>
          have hall := checkFks_eq_none hcf
          obtain ⟨m, hmem, hoffm⟩ := hoff
          rcases List.mem_cons.mp hmem with rfl | hmem2
          · obtain ⟨_, tbl2, fks2, fk2, hok2, hfks2, hfk2mem, hfk2mt⟩ := hoffm
            rw [hok] at hok2
            injection hok2 with e1
            injection e1 with e2
            rw [← e2] at hfks2
            rw [hfks] at hfks2
            injection hfks2 with e3
            injection e3 with e4
            rw [← e4] at hfk2mem
            rw [hall fk2 hfk2mem] at hfk2mt; cases hfk2mt
          · obtain ⟨c, u, hu, houf, heq⟩ :=
              ih (fun m2 hmem2 hm2 => hres m2 (by simp [hmem2]) hm2) ⟨m, hmem2, hoffm⟩
            exact ⟨c, u, by simp [hu], houf,
              by simpa [checkTables, hm, hok, hfks, hcf] using heq⟩

theorem checkDbs_skip {dbName tableName : String} {pre rest : List Database}
    (h : ∀ db ∈ pre, sToLower db.name ≠ dbName) :
    checkDbs dbName tableName (pre ++ rest) = checkDbs dbName tableName rest := by
  induction pre with
  | nil => rfl
  | cons db pre2 ih =>
    have hn : sToLower db.name ≠ dbName := h db (by simp)
    simpa [checkDbs, hn] using ih (fun m hmem => h m (by simp [hmem]))

theorem checkDbs_none {dbName tableName : String} {l : List Database}
    (h : ∀ db ∈ l, sToLower db.name = dbName → dbFkClean tableName db) :
    checkDbs dbName tableName l = none := by
  induction l with
  | nil => rfl
  | cons db rest ih =>
    have hrest := ih (fun m hmem hm => h m (by simp [hmem]) hm)
    by_cases hn : sToLower db.name = dbName
    · obtain ⟨ns, hok, hclean⟩ := h db (by simp) hn
      simpa [checkDbs, hn, hok, checkTables_none hclean] using hrest
    · simpa [checkDbs, hn] using hrest

theorem checkTables_false_shape {db : Database} {tableName : String} {ns : List String}
    {e : Err} (h : checkTables db tableName ns = some (false, e)) :
    ∃ c u, e = Err.truncateReferencedFromForeignKey tableName c u := by
  induction ns with
  | nil => simp [checkTables] at h
  | cons nm rest ih =>
    cases hm : matchesName tableName nm with
    | true =>
      simp only [checkTables, hm, if_true] at h
      exact ih h
    | false =>
      simp only [checkTables, hm, Bool.false_eq_true, if_false] at h
      cases hok : db.getTableInsensitive nm with
      | error e2 => rw [hok] at h; injection h with h2; injection h2 with h3; cases h3
      | ok otbl =>
        cases otbl with
        | none => rw [hok] at h; injection h with h2; injection h2 with h3; cases h3
        | some tbl =>
          rw [hok] at h
          simp only [] at h
          cases hfks : tbl.foreignKeys with
          | none => rw [hfks] at h; exact ih h
          | some r =>
            cases r with
            | error e2 =>
              rw [hfks] at h; injection h with h2; injection h2 with h3; cases h3
            | ok fks =>
              rw [hfks] at h
              simp only [] at h
              cases hcf : checkFks tableName nm fks with
              | none => rw [hcf] at h; exact ih h
              | some e2 =>
                rw [hcf] at h
                injection h with h2
                injection h2 with h3 h4
                obtain ⟨fk0, _, _, he⟩ := checkFks_some hcf
                exact ⟨fk0.name, nm, by rw [← h4, he]⟩

theorem checkDbs_false_shape {dbName tableName : String} {l : List Database} {e : Err}
    (h : checkDbs dbName tableName l = some (false, e)) :
    ∃ c u, e = Err.truncateReferencedFromForeignKey tableName c u := by
  induction l with
  | nil => simp [checkDbs] at h
  | cons db rest ih =>
    by_cases hn : sToLower db.name ≠ dbName
    · simp only [checkDbs, if_pos hn] at h
      exact ih h
    · simp only [checkDbs, if_neg hn] at h
      cases hok : db.tableNames with
      | error e2 => rw [hok] at h; injection h with h2; injection h2 with h3; cases h3
      | ok ns =>
        rw [hok] at h
        simp only [] at h
        cases hct : checkTables db tableName ns with
        | some r =>
          rw [hct] at h
          injection h with h2
          rw [h2] at hct
          exact checkTables_false_shape hct
        | none =>
          rw [hct] at h
          exact ih h

theorem GetTruncatable_error {n : Node} {e : Err} (h : GetTruncatable n = Except.error e) :
    e = Err.notTruncatable := by
  cases n <;> simp [GetTruncatable] at h <;> exact h.symm

theorem normalizedDbName_ne {ctx : Context} {dbName : String} (hne : dbName ≠ "") :
    normalizedDbName ctx dbName = sToLower dbName := by
  have hbe : (dbName == "") = false := by
    simp only [beq_eq_false_iff_ne, ne_eq]; exact hne
  simp [normalizedDbName, hbe]

theorem validateTruncate_eq (ctx : Context) (a : Analyzer) (dbName : String) (tbl : Table) :
    validateTruncate ctx a dbName (Node.resolvedTable tbl) =
      (match checkDbs (normalizedDbName ctx dbName) (sToLower tbl.name) a.catalog with
        | some (b, e) => (b, some e)
        | none => (true, none)) := by
  simp [validateTruncate, GetTruncatable]

theorem rewriteSucceeds (ctx : Context) (pre post : List Database) (d : Database) (tbl : Table)
    (hname : sToLower d.name ≠ "")
    (hauto : ∀ c ∈ tbl.schema, c.autoIncrement = false)
    (hd : tableNamesUnique (sToLower tbl.name) d)
    (hothers : ∀ db ∈ pre ++ post, tableNamesOkZero (sToLower tbl.name) db)
    (htrig : ∀ db ∈ pre ++ d :: post, triggersOkClean (sToLower tbl.name) d.name (sToLower d.name) db)
    (hfk : ∀ db ∈ pre ++ d :: post, sToLower db.name = sToLower d.name →
      dbFkClean (sToLower tbl.name) db) :
    deleteToTruncate ctx ⟨pre ++ d :: post⟩ (Node.resolvedTable tbl)
      = Except.ok (Node.truncate d.name (Node.resolvedTable tbl)) := by
  have hany : tbl.schema.any (fun col => col.autoIncrement) = false := by
    simp only [List.any_eq_false]
    exact fun c hc => by simp [hauto c hc]
  have hscan : scanDbs (sToLower tbl.name) (pre ++ d :: post) none
      = Except.ok (Sum.inr (some d.name)) :=
    scanDbs_unique (fun db hdb => hothers db (by simp [hdb]))
      (fun db hdb => hothers db (by simp [hdb])) hd
  have htrigs : checkAllTriggers (sToLower tbl.name) d.name (sToLower d.name) (pre ++ d :: post)
      = Except.ok false := checkAllTriggers_false htrig
  have hval : checkDbs (sToLower d.name) (sToLower tbl.name) (pre ++ d :: post) = none :=
    checkDbs_none (fun db hdb hlow => hfk db hdb hlow)
  have hvt : validateTruncate ctx ⟨pre ++ d :: post⟩ (sToLower d.name) (Node.resolvedTable tbl)
      = (true, none) := by
    rw [validateTruncate_eq ctx ⟨pre ++ d :: post⟩ (sToLower d.name) tbl,
      normalizedDbName_ne hname]
    show (match checkDbs (sToLower (sToLower d.name)) (sToLower tbl.name)
        (pre ++ d :: post) with
      | some (b, e) => (b, some e)
      | none => (true, none)) = (true, none)
    rw [sToLower_idem, hval]
  simp only [deleteToTruncate, hany, Bool.false_eq_true, if_false]
  rw [hscan]
  simp only []
  rw [htrigs]
  simp only []
  rw [hvt]

theorem checkDbs_found {dbName tableName : String} {pre rest : List Database} {d : Database}
    {ns : List String} {r : Bool × Err}
    (hpre : ∀ db ∈ pre, sToLower db.name ≠ dbName)
    (hmatch : sToLower d.name = dbName)
    (hok : d.tableNames = Except.ok ns)
    (hct : checkTables d tableName ns = some r) :
    checkDbs dbName tableName (pre ++ d :: rest) = some r := by
  rw [checkDbs_skip hpre]
  simp [checkDbs, hmatch, hok, hct]

theorem walkChildren_eq_flatMap {σ : Type} (visit : σ → Option Expression → Option σ)
    (v : σ) (cs : List Expression) :
    walkChildren visit v cs = cs.flatMap (fun c => Walk visit v c) := by
  induction cs with
  | nil => rfl
  | cons c rest ih => simp [walkChildren, ih]

/-- C5: a resolved table with at least one auto-increment column is never
rewritten — `deleteToTruncate` returns the original Delete with no error for
every session and every catalog whatsoever (the catalog quantifier shows the
check short-circuits before any catalog enumeration, since even catalogs whose
lookups fail produce no error). -/
theorem autoincrement_short_circuits (tbl : Table)
    (h : ∃ c ∈ tbl.schema, c.autoIncrement = true) (ctx : Context) (a : Analyzer) :
    deleteToTruncate ctx a (Node.resolvedTable tbl)
      = Except.ok (Node.deleteFrom (Node.resolvedTable tbl)) := by
  have hany : tbl.schema.any (fun col => col.autoIncrement) = true := by
    obtain ⟨c, hc, hai⟩ := h
    exact List.any_eq_true.mpr ⟨c, hc, hai⟩
  simp [deleteToTruncate, hany]

/-- C5 witness: the auto-increment table is kept as a DELETE even over a
catalog whose table-name listing fails. -/
theorem autoincrement_short_circuits_witness :
    deleteToTruncate ctx0 ⟨[dbErrNames]⟩ (Node.resolvedTable tAuto)
      = Except.ok (Node.deleteFrom (Node.resolvedTable tAuto)) :=
  autoincrement_short_circuits tAuto ⟨⟨"id", true⟩, by simp [tAuto], rfl⟩ ctx0 ⟨[dbErrNames]⟩

/-- C7: the walker's visitor contract — a `none` continuation prunes the
node's subtree (its trace is the single entry call, with no child visits and
no sentinel), while a `some v2` continuation walks each child independently
from `v2` (so a pruned child does not affect its siblings) and then makes
exactly one trailing sentinel call to `v2`. -/
theorem walk_contract {σ : Type} (visit : σ → Option Expression → Option σ) (v : σ)
    (l : Nat) (cs : List Expression) :
    (visit v (some (Expression.node l cs)) = none →
      Walk visit v (Expression.node l cs) = [(v, some (Expression.node l cs))]) ∧
    (∀ v2, visit v (some (Expression.node l cs)) = some v2 →
      Walk visit v (Expression.node l cs)
        = (v, some (Expression.node l cs))
            :: (cs.flatMap (fun c => Walk visit v2 c) ++ [(v2, none)])) := by
  constructor
  · intro h
    simp [Walk, h]
  · intro v2 h
    simp [Walk, h, walkChildren_eq_flatMap]

/-- C7 witness: with the countdown visitor, state 0 prunes the inner node
(no child visit, no sentinel) and state 1 descends into the root, visiting
both children with the continuation state 0 — the pruned first child does not
stop the second — followed by one sentinel call. -/
theorem walk_contract_witness :
    Walk wVisit 0 wInner = [(0, some wInner)] ∧
    Walk wVisit 1 wTree
      = (1, some wTree)
          :: ([wInner, wLeaf2].flatMap (fun c => Walk wVisit 0 c) ++ [(0, none)]) :=
  ⟨(walk_contract wVisit 0 1 [wLeaf1]).1 rfl,
   (walk_contract wVisit 1 0 [wInner, wLeaf2]).2 0 rfl⟩

/-- C10: when no database of the catalog matches the normalized target
database name (for instance when both the qualifier and the session's current
database are empty), `validateTruncate` scans nothing and returns
`(true, none)`, and an explicit TRUNCATE naming that database passes
`processTruncate` unchanged. -/
theorem unknown_database_validates (ctx : Context) (a : Analyzer) (dbName : String)
    (tbl : Table)
    (h : ∀ db ∈ a.catalog, sToLower db.name ≠ normalizedDbName ctx dbName) :
    validateTruncate ctx a dbName (Node.resolvedTable tbl) = (true, none) ∧
    processTruncate ctx a (Node.truncate dbName (Node.resolvedTable tbl))
      = Except.ok (Node.truncate dbName (Node.resolvedTable tbl)) := by
  have hnone : checkDbs (normalizedDbName ctx dbName) (sToLower tbl.name) a.catalog = none :=
    checkDbs_none (fun db hdb heq => absurd heq (h db hdb))
  have hv : validateTruncate ctx a dbName (Node.resolvedTable tbl) = (true, none) := by
    rw [validateTruncate_eq, hnone]
  exact ⟨hv, by simp [processTruncate, hv]⟩

/-- C10 witness: with an empty qualifier and an empty session database, the
normalized name matches no catalog database and validation succeeds. -/
theorem unknown_database_validates_witness :
    validateTruncate ctx0 ⟨[dbT]⟩ "" (Node.resolvedTable tT) = (true, none) ∧
    processTruncate ctx0 ⟨[dbT]⟩ (Node.truncate "" (Node.resolvedTable tT))
      = Except.ok (Node.truncate "" (Node.resolvedTable tT)) :=
  unknown_database_validates ctx0 ⟨[dbT]⟩ "" tT
    (by intro db hdb; simp at hdb; subst hdb; decide)

/-- C9: `validateTruncate` skips the target table's own name while scanning,
so a catalog in which every other table of the matching databases is clean —
no matter what foreign keys the target table itself holds, and even if
fetching the target table fails — validates with `(true, none)`; an explicit
TRUNCATE then passes, and under the usual rewrite conditions the automatic
DELETE-to-TRUNCATE rewrite also goes through. -/
theorem self_reference_skipped (ctx : Context) (a : Analyzer) (dbName : String) (tbl : Table)
    (hclean : ∀ db ∈ a.catalog, sToLower db.name = normalizedDbName ctx dbName →
      dbFkClean (sToLower tbl.name) db) :
    validateTruncate ctx a dbName (Node.resolvedTable tbl) = (true, none) ∧
    processTruncate ctx a (Node.truncate dbName (Node.resolvedTable tbl))
      = Except.ok (Node.truncate dbName (Node.resolvedTable tbl)) ∧
    (∀ pre post (d : Database), a.catalog = pre ++ d :: post →
      sToLower d.name ≠ "" →
      (∀ c ∈ tbl.schema, c.autoIncrement = false) →
      tableNamesUnique (sToLower tbl.name) d →
      (∀ db ∈ pre ++ post, tableNamesOkZero (sToLower tbl.name) db) →
      (∀ db ∈ pre ++ d :: post, triggersOkClean (sToLower tbl.name) d.name (sToLower d.name) db) →
      (∀ db ∈ pre ++ d :: post, sToLower db.name = sToLower d.name →
        dbFkClean (sToLower tbl.name) db) →
      deleteToTruncate ctx a (Node.resolvedTable tbl)
        = Except.ok (Node.truncate d.name (Node.resolvedTable tbl))) := by
  have hnone : checkDbs (normalizedDbName ctx dbName) (sToLower tbl.name) a.catalog = none :=
    checkDbs_none (fun db hdb heq => hclean db hdb heq)
  have hv : validateTruncate ctx a dbName (Node.resolvedTable tbl) = (true, none) := by
    rw [validateTruncate_eq, hnone]
  refine ⟨hv, by simp [processTruncate, hv], ?_⟩
  intro pre post d hcat hname hauto hd hothers htrig hfk
  obtain ⟨cat⟩ := a
  simp only [] at hcat
  subst hcat
  exact rewriteSucceeds ctx pre post d tbl hname hauto hd hothers htrig hfk

/-- C9 witness: the only table of database d1 is the target t itself, holding
a self-referencing foreign key, and every table fetch on d1 fails — yet
validation succeeds (the target's entry is skipped, never fetched), the
explicit TRUNCATE passes, and the DELETE is rewritten. -/
theorem self_reference_skipped_witness :
    validateTruncate ctx0 ⟨[dbSelf]⟩ "d1" (Node.resolvedTable tSelf) = (true, none) ∧
    processTruncate ctx0 ⟨[dbSelf]⟩ (Node.truncate "d1" (Node.resolvedTable tSelf))
      = Except.ok (Node.truncate "d1" (Node.resolvedTable tSelf)) ∧
    deleteToTruncate ctx0 ⟨[dbSelf]⟩ (Node.resolvedTable tSelf)
      = Except.ok (Node.truncate "d1" (Node.resolvedTable tSelf)) := by
  have h := self_reference_skipped ctx0 ⟨[dbSelf]⟩ "d1" tSelf
    (by
      intro db hdb heq
      simp at hdb; subst hdb
      exact ⟨["t"], rfl, by
        intro nm hnm hm
        simp at hnm; subst hnm
        exact absurd hm (by decide)⟩)
  refine ⟨h.1, h.2.1, ?_⟩
  refine h.2.2 [] [] dbSelf rfl (by decide) (by decide) ?_ (by simp) ?_ ?_
  · exact ⟨[], "t", [], rfl, by decide, by simp, by simp⟩
  · intro db hdb
    simp at hdb; subst hdb
    exact ⟨[], rfl, by simp⟩
  · intro db hdb heq
    simp at hdb; subst hdb
    exact ⟨["t"], rfl, by
      intro nm hnm hm
      simp at hnm; subst hnm
      exact absurd hm (by decide)⟩

/-- C1 counterexample: the rewrite preconditions as claimed are not enough.
Database x lists the two case-variant names T and t — so the target name
occurs in exactly one known database — and there is no trigger and no foreign
key anywhere, yet the DELETE is kept (the scan aborts on the second matching
name even inside one database); likewise a delete-event trigger with a
statically unresolvable target in an unrelated, empty database — targeting
nothing identifiable — also keeps the DELETE. -/
theorem delete_rewrite_preconditions_counterexample :
    processTruncate ctx0 ⟨[dbDup]⟩ (Node.deleteFrom (Node.resolvedTable tT))
      = Except.ok (Node.deleteFrom (Node.resolvedTable tT)) ∧
    (∀ dn, Node.deleteFrom (Node.resolvedTable tT) ≠ Node.truncate dn (Node.resolvedTable tT)) ∧
    processTruncate ctx0 ⟨[dbTrigBlob, dbT]⟩ (Node.deleteFrom (Node.resolvedTable tT))
      = Except.ok (Node.deleteFrom (Node.resolvedTable tT)) := by
  refine ⟨by decide, ?_, by decide⟩
  intro dn h
  cases h

/-- C1 (amended): an unconditional DELETE over a resolved table with no
auto-increment column, whose name matches exactly one table-name entry across
all known databases (case-insensitively), with every delete-event trigger
everywhere having a statically resolvable, non-matching target, and no
foreign key in any other table of the matching databases referencing it, is
rewritten by `processTruncate` into a fresh Truncate node bound to the
matched database's name and the same resolved table, with no error. -/
theorem processTruncate_delete_rewrites (ctx : Context) (pre post : List Database)
    (d : Database) (tbl : Table)
    (hname : sToLower d.name ≠ "")
    (hauto : ∀ c ∈ tbl.schema, c.autoIncrement = false)
    (hd : tableNamesUnique (sToLower tbl.name) d)
    (hothers : ∀ db ∈ pre ++ post, tableNamesOkZero (sToLower tbl.name) db)
    (htrig : ∀ db ∈ pre ++ d :: post,
      triggersOkClean (sToLower tbl.name) d.name (sToLower d.name) db)
    (hfk : ∀ db ∈ pre ++ d :: post, sToLower db.name = sToLower d.name →
      dbFkClean (sToLower tbl.name) db) :
    processTruncate ctx ⟨pre ++ d :: post⟩ (Node.deleteFrom (Node.resolvedTable tbl))
      = Except.ok (Node.truncate d.name (Node.resolvedTable tbl)) := by
  have h := rewriteSucceeds ctx pre post d tbl hname hauto hd hothers htrig hfk
  simpa [processTruncate] using h

/-- C1 witness: `DELETE FROM orders` over the sales database (whose customers
table has only an unrelated foreign key, and whose single trigger is an
insert trigger) becomes `TRUNCATE orders` bound to sales. -/
theorem processTruncate_delete_rewrites_witness :
    processTruncate ctxSales ⟨[dbClean]⟩ (Node.deleteFrom (Node.resolvedTable tOrders))
      = Except.ok (Node.truncate "sales" (Node.resolvedTable tOrders)) := by
  have h := processTruncate_delete_rewrites ctxSales [] [] dbClean tOrders
    (by decide) (by decide)
    ⟨[], "orders", ["customers"], rfl, by decide, by simp, by decide⟩
    (by simp)
    (by
      intro db hdb
      simp at hdb; subst hdb
      refine ⟨[⟨TriggerEvent.insert, Node.unresolvedTable "orders" ""⟩], rfl, ?_⟩
      intro tr htr hev
      simp at htr; subst htr
      exact absurd hev (by decide))
    (by
      intro db hdb heq
      simp at hdb; subst hdb
      refine ⟨["orders", "customers"], rfl, ?_⟩
      intro nm hnm hm
      simp at hnm
      rcases hnm with rfl | rfl
      · exact absurd hm (by decide)
      · exact ⟨tCustomers, rfl, Or.inr ⟨[⟨"fk2", "people"⟩], rfl, by decide⟩⟩)
  exact h

/-- C6: the rewrite is abandoned, with no error, both when two databases each
list a table matching the target name (the scan aborts at the second match,
so the databases after it are never consulted — they are unconstrained here)
and when no known database lists a matching table. -/
theorem ambiguous_or_missing_no_rewrite (ctx : Context) (tbl : Table) :
    (∀ pre mid post (d1 d2 : Database),
      (∀ db ∈ pre, tableNamesOkZero (sToLower tbl.name) db) →
      (∀ db ∈ mid, tableNamesOkZero (sToLower tbl.name) db) →
      tableNamesOkPos (sToLower tbl.name) d1 →
      tableNamesOkPos (sToLower tbl.name) d2 →
      deleteToTruncate ctx ⟨pre ++ d1 :: (mid ++ d2 :: post)⟩ (Node.resolvedTable tbl)
        = Except.ok (Node.deleteFrom (Node.resolvedTable tbl))) ∧
    (∀ l, (∀ db ∈ l, tableNamesOkZero (sToLower tbl.name) db) →
      deleteToTruncate ctx ⟨l⟩ (Node.resolvedTable tbl)
        = Except.ok (Node.deleteFrom (Node.resolvedTable tbl))) := by
  constructor
  · intro pre mid post d1 d2 hpre hmid h1 h2
    cases hany : tbl.schema.any (fun col => col.autoIncrement) with
    | true => simp [deleteToTruncate, hany]
    | false =>
      have hscan : scanDbs (sToLower tbl.name) (pre ++ d1 :: (mid ++ d2 :: post)) none
          = Except.ok (Sum.inl ()) := scanDbs_ambiguous hpre hmid h1 h2
      simp only [deleteToTruncate, hany, Bool.false_eq_true, if_false]
      rw [hscan]
  · intro l hl
    cases hany : tbl.schema.any (fun col => col.autoIncrement) with
    | true => simp [deleteToTruncate, hany]
    | false =>
      simp only [deleteToTruncate, hany, Bool.false_eq_true, if_false]
      rw [scanDbs_zero hl none]

/-- C6 witness: databases a and b both list a table t, so the DELETE is kept;
a catalog whose only database lists no matching table also keeps the DELETE. -/
theorem ambiguous_or_missing_no_rewrite_witness :
    deleteToTruncate ctx0 ⟨[dbA, dbB]⟩ (Node.resolvedTable tT)
      = Except.ok (Node.deleteFrom (Node.resolvedTable tT)) ∧
    deleteToTruncate ctx0 ⟨[dbClean]⟩ (Node.resolvedTable tT)
      = Except.ok (Node.deleteFrom (Node.resolvedTable tT)) := by
  constructor
  · exact (ambiguous_or_missing_no_rewrite ctx0 tT).1 [] [] [] dbA dbB
      (by simp) (by simp)
      ⟨["t"], rfl, "t", by simp, by decide⟩
      ⟨["t"], rfl, "t", by simp, by decide⟩
  · exact (ambiguous_or_missing_no_rewrite ctx0 tT).2 [dbClean]
      (by intro db hdb; simp at hdb; subst hdb; exact ⟨["orders", "customers"], rfl, by decide⟩)

/-- C4: with the target table uniquely located in database d, a delete-event
trigger whose unresolved target matches the table (qualified
case-insensitively, or unqualified and owned by d) abandons the rewrite with
no error; a delete-event trigger whose target is not an unresolved-table
reference likewise abandons it; and when every trigger of every database
fires on insert or update only, the rewrite (under the remaining conditions)
still goes through. -/
theorem delete_trigger_blocks_rewrite (ctx : Context) (pre post : List Database)
    (d : Database) (tbl : Table)
    (hname : sToLower d.name ≠ "")
    (hd : tableNamesUnique (sToLower tbl.name) d)
    (hothers : ∀ db ∈ pre ++ post, tableNamesOkZero (sToLower tbl.name) db)
    (htrigok : ∀ db ∈ pre ++ d :: post, ∃ ts, db.triggers = Except.ok ts) :
    ((∃ db ∈ pre ++ d :: post, ∃ ts, db.triggers = Except.ok ts ∧
        ∃ tr ∈ ts, tr.triggerEvent = TriggerEvent.delete ∧
          ∃ nm q, tr.table = Node.unresolvedTable nm q ∧
            triggerMatches (sToLower tbl.name) d.name (sToLower d.name) db.name nm q = true) →
      deleteToTruncate ctx ⟨pre ++ d :: post⟩ (Node.resolvedTable tbl)
        = Except.ok (Node.deleteFrom (Node.resolvedTable tbl))) ∧
    ((∃ db ∈ pre ++ d :: post, ∃ ts, db.triggers = Except.ok ts ∧
        ∃ tr ∈ ts, tr.triggerEvent = TriggerEvent.delete ∧
          ∀ nm q, tr.table ≠ Node.unresolvedTable nm q) →
      deleteToTruncate ctx ⟨pre ++ d :: post⟩ (Node.resolvedTable tbl)
        = Except.ok (Node.deleteFrom (Node.resolvedTable tbl))) ∧
    (((∀ db ∈ pre ++ d :: post, ∃ ts, db.triggers = Except.ok ts ∧
          ∀ tr ∈ ts, tr.triggerEvent ≠ TriggerEvent.delete) ∧
        (∀ c ∈ tbl.schema, c.autoIncrement = false) ∧
        (∀ db ∈ pre ++ d :: post, sToLower db.name = sToLower d.name →
          dbFkClean (sToLower tbl.name) db)) →
      deleteToTruncate ctx ⟨pre ++ d :: post⟩ (Node.resolvedTable tbl)
        = Except.ok (Node.truncate d.name (Node.resolvedTable tbl))) := by
  have hscan : scanDbs (sToLower tbl.name) (pre ++ d :: post) none
      = Except.ok (Sum.inr (some d.name)) :=
    scanDbs_unique (fun db hdb => hothers db (by simp [hdb]))
      (fun db hdb => hothers db (by simp [hdb])) hd
  refine ⟨?_, ?_, ?_⟩
  · intro hex
    cases hany : tbl.schema.any (fun col => col.autoIncrement) with
    | true => simp [deleteToTruncate, hany]
    | false =>
      obtain ⟨db, hmem, ts, hts, tr, htr, hdel, nm, q, htbl, hm⟩ := hex
      have htrue : checkAllTriggers (sToLower tbl.name) d.name (sToLower d.name)
          (pre ++ d :: post) = Except.ok true :=
        checkAllTriggers_true htrigok
          ⟨db, hmem, ts, hts, tr, htr, hdel, Or.inr ⟨nm, q, htbl, hm⟩⟩
      simp only [deleteToTruncate, hany, Bool.false_eq_true, if_false]
      rw [hscan]
      simp only []
      rw [htrue]
  · intro hex
    cases hany : tbl.schema.any (fun col => col.autoIncrement) with
    | true => simp [deleteToTruncate, hany]
    | false =>
      obtain ⟨db, hmem, ts, hts, tr, htr, hdel, hno⟩ := hex
      have htrue : checkAllTriggers (sToLower tbl.name) d.name (sToLower d.name)
          (pre ++ d :: post) = Except.ok true :=
        checkAllTriggers_true htrigok ⟨db, hmem, ts, hts, tr, htr, hdel, Or.inl hno⟩
      simp only [deleteToTruncate, hany, Bool.false_eq_true, if_false]
      rw [hscan]
      simp only []
      rw [htrue]
  · intro ⟨htr, hauto, hfk⟩
    have htrig : ∀ db ∈ pre ++ d :: post,
        triggersOkClean (sToLower tbl.name) d.name (sToLower d.name) db := by
      intro db hdb
      obtain ⟨ts, hts, hnd⟩ := htr db hdb
      exact ⟨ts, hts, fun tr htrm hev => absurd hev (hnd tr htrm)⟩
    exact rewriteSucceeds ctx pre post d tbl hname hauto hd hothers htrig hfk

/-- C4 witness: an unqualified delete trigger in the sales database blocks
`DELETE FROM t`; a delete trigger with an opaque target in another database
blocks it too; and the insert trigger of the clean sales catalog does not
prevent `DELETE FROM orders` from being rewritten. -/
theorem delete_trigger_blocks_rewrite_witness :
    deleteToTruncate ctx0 ⟨[dbTrigExact, dbT]⟩ (Node.resolvedTable tT)
      = Except.ok (Node.deleteFrom (Node.resolvedTable tT)) ∧
    deleteToTruncate ctx0 ⟨[dbTrigBlob, dbT]⟩ (Node.resolvedTable tT)
      = Except.ok (Node.deleteFrom (Node.resolvedTable tT)) ∧
    deleteToTruncate ctxSales ⟨[dbClean]⟩ (Node.resolvedTable tOrders)
      = Except.ok (Node.truncate "sales" (Node.resolvedTable tOrders)) := by
  refine ⟨?_, ?_, ?_⟩
  · exact (delete_trigger_blocks_rewrite ctx0 [dbTrigExact] [] dbT tT
      (by decide)
      ⟨[], "t", [], rfl, by decide, by simp, by simp⟩
      (by intro db hdb; simp at hdb; subst hdb; exact ⟨[], rfl, by simp⟩)
      (by
        intro db hdb
        simp at hdb
        rcases hdb with rfl | rfl
        · exact ⟨[⟨TriggerEvent.delete, Node.unresolvedTable "t" ""⟩], rfl⟩
        · exact ⟨[], rfl⟩)).1
      ⟨dbTrigExact, by simp,
        [⟨TriggerEvent.delete, Node.unresolvedTable "t" ""⟩], rfl,
        ⟨TriggerEvent.delete, Node.unresolvedTable "t" ""⟩, by simp, rfl,
        "t", "", rfl, by decide⟩
  · exact (delete_trigger_blocks_rewrite ctx0 [dbTrigBlob] [] dbT tT
      (by decide)
      ⟨[], "t", [], rfl, by decide, by simp, by simp⟩
      (by intro db hdb; simp at hdb; subst hdb; exact ⟨[], rfl, by simp⟩)
      (by
        intro db hdb
        simp at hdb
        rcases hdb with rfl | rfl
        · exact ⟨[⟨TriggerEvent.delete, Node.other⟩], rfl⟩
        · exact ⟨[], rfl⟩)).2.1
      ⟨dbTrigBlob, by simp,
        [⟨TriggerEvent.delete, Node.other⟩], rfl,
        ⟨TriggerEvent.delete, Node.other⟩, by simp, rfl,
        by intro nm q h; cases h⟩
  · exact (delete_trigger_blocks_rewrite ctxSales [] [] dbClean tOrders
      (by decide)
      ⟨[], "orders", ["customers"], rfl, by decide, by simp, by decide⟩
      (by simp)
      (by
        intro db hdb
        simp at hdb; subst hdb
        exact ⟨[⟨TriggerEvent.insert, Node.unresolvedTable "orders" ""⟩], rfl⟩)).2.2
      ⟨by
        intro db hdb
        simp at hdb; subst hdb
        refine ⟨[⟨TriggerEvent.insert, Node.unresolvedTable "orders" ""⟩], rfl, ?_⟩
        intro tr htr
        simp at htr; subst htr
        decide,
      by decide,
      by
        intro db hdb heq
        simp at hdb; subst hdb
        refine ⟨["orders", "customers"], rfl, ?_⟩
        intro nm hnm hm
        simp at hnm
        rcases hnm with rfl | rfl
        · exact absurd hm (by decide)
        · exact ⟨tCustomers, rfl, Or.inr ⟨[⟨"fk2", "people"⟩], rfl, by decide⟩⟩⟩

/-- C2: when some other table u of the target's database holds a foreign key
referencing the target, the explicit TRUNCATE fails in `processTruncate` with
the referenced-from-foreign-key error naming the target, a constraint and a
referencing table, while `deleteToTruncate` under the same catalog silently
keeps the original DELETE with no error. -/
theorem truncate_fk_error_delete_fallback (ctx : Context) (pre post : List Database)
    (d : Database) (tbl : Table)
    (hname : sToLower d.name ≠ "")
    (hd : tableNamesUnique (sToLower tbl.name) d)
    (hothers : ∀ db ∈ pre ++ post, tableNamesOkZero (sToLower tbl.name) db)
    (hodb : ∀ db ∈ pre ++ post, sToLower db.name ≠ sToLower d.name)
    (htrigok : ∀ db ∈ pre ++ d :: post, ∃ ts, db.triggers = Except.ok ts)
    (hres : dbResolvable (sToLower tbl.name) d)
    (hoff : ∃ ns, d.tableNames = Except.ok ns ∧ ∃ nm ∈ ns, offender d (sToLower tbl.name) nm) :
    (∃ c u, offender d (sToLower tbl.name) u ∧
      processTruncate ctx ⟨pre ++ d :: post⟩ (Node.truncate d.name (Node.resolvedTable tbl))
        = Except.error (Err.truncateReferencedFromForeignKey (sToLower tbl.name) c u)) ∧
    deleteToTruncate ctx ⟨pre ++ d :: post⟩ (Node.resolvedTable tbl)
      = Except.ok (Node.deleteFrom (Node.resolvedTable tbl)) := by
  obtain ⟨ns, hnsok, hoffex⟩ := hoff
  obtain ⟨ns2, hns2ok, hresall⟩ := hres
  rw [hnsok] at hns2ok
  injection hns2ok with e
  subst e
  obtain ⟨c, u, humem, huoff, hct⟩ := checkTables_offender hresall hoffex
  have hpre2 : ∀ db ∈ pre, sToLower db.name ≠ sToLower d.name :=
    fun db hdb => hodb db (by simp [hdb])
  have hcd : checkDbs (sToLower d.name) (sToLower tbl.name) (pre ++ d :: post)
      = some (false, Err.truncateReferencedFromForeignKey (sToLower tbl.name) c u) :=
    checkDbs_found hpre2 rfl hnsok hct
  have hdnne : d.name ≠ "" := fun he => hname (by rw [he]; rfl)
  have hvt : validateTruncate ctx ⟨pre ++ d :: post⟩ d.name (Node.resolvedTable tbl)
      = (false, some (Err.truncateReferencedFromForeignKey (sToLower tbl.name) c u)) := by
    rw [validateTruncate_eq, normalizedDbName_ne hdnne]
    show (match checkDbs (sToLower d.name) (sToLower tbl.name) (pre ++ d :: post) with
      | some (b, e) => (b, some e)
      | none => (true, none)) = _
    rw [hcd]
  refine ⟨⟨c, u, huoff, by simp [processTruncate, hvt]⟩, ?_⟩
  cases hany : tbl.schema.any (fun col => col.autoIncrement) with
  | true => simp [deleteToTruncate, hany]
  | false =>
    have hscan : scanDbs (sToLower tbl.name) (pre ++ d :: post) none
        = Except.ok (Sum.inr (some d.name)) :=
      scanDbs_unique (fun db hdb => hothers db (by simp [hdb]))
        (fun db hdb => hothers db (by simp [hdb])) hd
    obtain ⟨b, htrb⟩ :=
      @checkAllTriggers_ok (sToLower tbl.name) d.name (sToLower d.name)
        (pre ++ d :: post) htrigok
    cases b with
    | true =>
      simp only [deleteToTruncate, hany, Bool.false_eq_true, if_false]
      rw [hscan]
      simp only []
      rw [htrb]
    | false =>
      have hvt2 : validateTruncate ctx ⟨pre ++ d :: post⟩ (sToLower d.name)
          (Node.resolvedTable tbl)
          = (false, some (Err.truncateReferencedFromForeignKey (sToLower tbl.name) c u)) := by
        rw [validateTruncate_eq, normalizedDbName_ne hname]
        show (match checkDbs (sToLower (sToLower d.name)) (sToLower tbl.name)
            (pre ++ d :: post) with
          | some (b, e) => (b, some e)
          | none => (true, none)) = _
        rw [sToLower_idem, hcd]
      simp only [deleteToTruncate, hany, Bool.false_eq_true, if_false]
      rw [hscan]
      simp only []
      rw [htrb]
      simp only []
      rw [hvt2]

/-- C2 witness: in the sales database, order_items references orders through
fk1, so `TRUNCATE orders` fails naming the constraint while `DELETE FROM
orders` silently stays a DELETE. -/
theorem truncate_fk_error_delete_fallback_witness :
    (∃ c u, offender dbSales (sToLower tOrders.name) u ∧
      processTruncate ctxSales ⟨[dbSales]⟩ (Node.truncate "sales" (Node.resolvedTable tOrders))
        = Except.error (Err.truncateReferencedFromForeignKey (sToLower tOrders.name) c u)) ∧
    deleteToTruncate ctxSales ⟨[dbSales]⟩ (Node.resolvedTable tOrders)
      = Except.ok (Node.deleteFrom (Node.resolvedTable tOrders)) :=
  truncate_fk_error_delete_fallback ctxSales [] [] dbSales tOrders
    (by decide)
    ⟨[], "orders", ["order_items"], rfl, by decide, by simp, by decide⟩
    (by simp) (by simp)
    (by intro db hdb; simp at hdb; subst hdb; exact ⟨[], rfl⟩)
    (by
      refine ⟨["orders", "order_items"], rfl, ?_⟩
      intro nm hnm hm
      simp at hnm
      rcases hnm with rfl | rfl
      · exact absurd hm (by decide)
      · exact ⟨tItems, rfl, Or.inr ⟨[⟨"fk1", "orders"⟩], rfl⟩⟩)
    ⟨["orders", "order_items"], rfl, "order_items", by simp,
      by decide, tItems, [⟨"fk1", "orders"⟩], ⟨"fk1", "orders"⟩, rfl, rfl, by simp, by decide⟩

/-- C3 counterexample: two catalogs that differ only in the letter case of the
trigger-hosting database's name (SALES versus sales) behave differently — an
unqualified delete trigger on t hosted by SALES does not block the rewrite of
`DELETE FROM t` (matched database sales), while the identical trigger hosted
by sales blocks it.  Were every identifier comparison of the pass
case-insensitive, both runs would be blocked. -/
theorem case_sensitive_owner_check_counterexample :
    sToLower dbTrigUpper.name = sToLower dbT.name ∧
    dbTrigUpper.name ≠ dbT.name ∧
    dbTrigUpper.triggers = dbTrigExact.triggers ∧
    deleteToTruncate ctx0 ⟨[dbTrigUpper, dbT]⟩ (Node.resolvedTable tT)
      = Except.ok (Node.truncate "sales" (Node.resolvedTable tT)) ∧
    deleteToTruncate ctx0 ⟨[dbTrigExact, dbT]⟩ (Node.resolvedTable tT)
      = Except.ok (Node.deleteFrom (Node.resolvedTable tT)) := by
  refine ⟨by decide, by decide, rfl, by decide, by decide⟩

/-- C3 amended: every identifier comparison of the pass is case-insensitive
(both sides lowered) except one — an unqualified delete-trigger target is
attributed to the matched database by comparing the owning database's name
with the matched database's name exactly, case-sensitively.  Lowering a
candidate never changes a table-name match, a nonempty trigger qualifier is
matched lowered, and the unqualified case reduces to exact equality of the
owner and matched names. -/
theorem identifier_comparison_amended :
    (∀ target n, matchesName target (sToLower n) = matchesName target n) ∧
    (∀ tblName dbName dbNameLower own nm q, q ≠ "" →
      triggerMatches tblName dbName dbNameLower own nm q
        = (matchesName tblName nm && (sToLower q == dbNameLower))) ∧
    (∀ tblName dbName dbNameLower own nm,
      triggerMatches tblName dbName dbNameLower own nm ""
        = (matchesName tblName nm && ((own == dbName) || ("" == dbNameLower)))) := by
  refine ⟨?_, ?_, ?_⟩
  · intro target n
    unfold matchesName
    rw [sToLower_idem]
  · intro tblName dbName dbNameLower own nm q hq
    have hbe : (q == "") = false := by
      simp only [beq_eq_false_iff_ne, ne_eq]; exact hq
    simp [triggerMatches, hbe]
  · intro tblName dbName dbNameLower own nm
    show (matchesName tblName nm &&
        ((("" == "") && (own == dbName)) || sToLower "" == dbNameLower)) = _
    rfl

/-- C3 amended witness: a nonempty qualifier differing only in case still
matches, and lowering a candidate table name does not change the match. -/
theorem identifier_comparison_amended_witness :
    triggerMatches "t" "sales" "sales" "SALES" "t" "SALES"
      = (matchesName "t" "t" && (sToLower "SALES" == "sales")) ∧
    matchesName "orders" (sToLower "ORDERS") = matchesName "orders" "ORDERS" :=
  ⟨identifier_comparison_amended.2.1 "t" "sales" "sales" "SALES" "t" "SALES" (by decide),
   identifier_comparison_amended.1 "orders" "ORDERS"⟩

/-- C8: metadata-access errors are always propagated and never downgraded to
a silent no-rewrite — a failing table-name listing reached by the database
scan aborts the rewrite with that error; a failing trigger load reached by
the trigger scan does too; `processTruncate` surfaces every validation error
of an explicit TRUNCATE; a validation error flagged applicable aborts the
delete path; validation flags an error non-applicable only for the
foreign-key violation itself (never for a lookup failure); and a failing
table fetch inside validation surfaces with the applicable flag set. -/
theorem metadata_errors_propagate :
    (∀ (ctx : Context) (tbl : Table) (pre post : List Database) (d : Database) (e : Err),
      (∀ c ∈ tbl.schema, c.autoIncrement = false) →
      (∀ db ∈ pre, tableNamesOkZero (sToLower tbl.name) db) →
      d.tableNames = Except.error e →
      deleteToTruncate ctx ⟨pre ++ d :: post⟩ (Node.resolvedTable tbl) = Except.error e) ∧
    (∀ (ctx : Context) (tbl : Table) (d dE : Database) (e : Err),
      (∀ c ∈ tbl.schema, c.autoIncrement = false) →
      tableNamesUnique (sToLower tbl.name) d →
      tableNamesOkZero (sToLower tbl.name) dE →
      triggersOkClean (sToLower tbl.name) d.name (sToLower d.name) d →
      dE.triggers = Except.error e →
      deleteToTruncate ctx ⟨[d, dE]⟩ (Node.resolvedTable tbl) = Except.error e) ∧
    (∀ (ctx : Context) (a : Analyzer) (dbName : String) (child : Node) (b : Bool) (e : Err),
      validateTruncate ctx a dbName child = (b, some e) →
      processTruncate ctx a (Node.truncate dbName child) = Except.error e) ∧
    (∀ (ctx : Context) (a : Analyzer) (tbl : Table) (dn : String) (e : Err),
      (∀ c ∈ tbl.schema, c.autoIncrement = false) →
      scanDbs (sToLower tbl.name) a.catalog none = Except.ok (Sum.inr (some dn)) →
      checkAllTriggers (sToLower tbl.name) dn (sToLower dn) a.catalog = Except.ok false →
      validateTruncate ctx a (sToLower dn) (Node.resolvedTable tbl) = (true, some e) →
      deleteToTruncate ctx a (Node.resolvedTable tbl) = Except.error e) ∧
    (∀ (ctx : Context) (a : Analyzer) (dbName : String) (tbl : Table) (e : Err),
      validateTruncate ctx a dbName (Node.resolvedTable tbl) = (false, some e) →
      ∃ t c u, e = Err.truncateReferencedFromForeignKey t c u) ∧
    (∀ (ctx : Context) (dbName : String) (tbl : Table) (d : Database) (nm : String) (e : Err),
      sToLower d.name = normalizedDbName ctx dbName →
      d.tableNames = Except.ok [nm] →
      matchesName (sToLower tbl.name) nm = false →
      d.getTableInsensitive nm = Except.error e →
      validateTruncate ctx ⟨[d]⟩ dbName (Node.resolvedTable tbl) = (true, some e)) := by
  refine ⟨?_, ?_, ?_, ?_, ?_, ?_⟩
  · intro ctx tbl pre post d e hauto hpre herr
    have hany : tbl.schema.any (fun col => col.autoIncrement) = false := by
      simp only [List.any_eq_false]
      exact fun c hc => by simp [hauto c hc]
    have hscan : scanDbs (sToLower tbl.name) (pre ++ d :: post) none = Except.error e := by
      rw [scanDbs_append_zero hpre]
      simp [scanDbs, herr]
    simp only [deleteToTruncate, hany, Bool.false_eq_true, if_false]
    rw [hscan]
  · intro ctx tbl d dE e hauto hd hdE hcl herr
    have hany : tbl.schema.any (fun col => col.autoIncrement) = false := by
      simp only [List.any_eq_false]
      exact fun c hc => by simp [hauto c hc]
    have hscan : scanDbs (sToLower tbl.name) [d, dE] none
        = Except.ok (Sum.inr (some d.name)) := by
      obtain ⟨ns1, n0, ns2, hok, h0, h1, h2⟩ := hd
      simp only [scanDbs, hok, scanNames_unique h1 h0 h2]
      obtain ⟨ms, hmok, hmz⟩ := hdE
      simp only [scanDbs, hmok, scanNames_zero _ hmz]
    have htrig : checkAllTriggers (sToLower tbl.name) d.name (sToLower d.name) [d, dE]
        = Except.error e := by
      obtain ⟨ts, hts, hclean⟩ := hcl
      simp only [checkAllTriggers, loadTriggersFromDb, hts,
        triggersBlock_false hclean, Bool.false_eq_true, if_false, herr]
    simp only [deleteToTruncate, hany, Bool.false_eq_true, if_false]
    rw [hscan]
    simp only []
    rw [htrig]
  · intro ctx a dbName child b e hv
    simp [processTruncate, hv]
  · intro ctx a tbl dn e hauto hscan htrig hv
    have hany : tbl.schema.any (fun col => col.autoIncrement) = false := by
      simp only [List.any_eq_false]
      exact fun c hc => by simp [hauto c hc]
    simp only [deleteToTruncate, hany, Bool.false_eq_true, if_false]
    rw [hscan]
    simp only []
    rw [htrig]
    simp only []
    rw [hv]
  · intro ctx a dbName tbl e hv
    rw [validateTruncate_eq] at hv
    cases hcd : checkDbs (normalizedDbName ctx dbName) (sToLower tbl.name) a.catalog with
    | none => rw [hcd] at hv; cases hv
    | some r =>
      obtain ⟨b2, e2⟩ := r
      rw [hcd] at hv
      simp only [] at hv
      injection hv with hb he
      injection he with he2
      rw [hb] at hcd
      rw [he2] at hcd
      obtain ⟨c, u, heq⟩ := checkDbs_false_shape hcd
      exact ⟨sToLower tbl.name, c, u, heq⟩
  · intro ctx dbName tbl d nm e hlow hok hm herr
    rw [validateTruncate_eq]
    have hcd : checkDbs (normalizedDbName ctx dbName) (sToLower tbl.name) [d]
        = some (true, e) := by
      have hne : ¬(sToLower d.name ≠ normalizedDbName ctx dbName) := by
        simp [hlow]
      simp only [checkDbs, if_neg hne, hok]
      simp only [checkTables, hm, Bool.false_eq_true, if_false, herr]
    rw [hcd]

/-- C8 witness: each propagation route exercised on an explicit catalog — a
broken table listing, a broken trigger load, a validation failure surfaced by
an explicit TRUNCATE, a broken table fetch aborting the delete path, the
non-applicable flag only ever carrying the foreign-key violation, and a
broken table fetch surfacing from validation with the applicable flag. -/
theorem metadata_errors_propagate_witness :
    deleteToTruncate ctx0 ⟨[dbErrNames]⟩ (Node.resolvedTable tT)
      = Except.error (Err.ioError "disk") ∧
    deleteToTruncate ctx0 ⟨[dbT, dbErrTriggers]⟩ (Node.resolvedTable tT)
      = Except.error (Err.ioError "trigload") ∧
    processTruncate ctxSales ⟨[dbSales]⟩ (Node.truncate "sales" (Node.resolvedTable tOrders))
      = Except.error (Err.truncateReferencedFromForeignKey "orders" "fk1" "order_items") ∧
    deleteToTruncate ctx0 ⟨[dbErrLookup]⟩ (Node.resolvedTable tT)
      = Except.error (Err.ioError "fetch") ∧
    (∃ t c u, Err.truncateReferencedFromForeignKey "orders" "fk1" "order_items"
      = Err.truncateReferencedFromForeignKey t c u) ∧
    validateTruncate ctx0 ⟨[dbErrLookup1]⟩ "look1" (Node.resolvedTable tT)
      = (true, some (Err.ioError "fetch")) := by
  refine ⟨?_, ?_, ?_, ?_, ?_, ?_⟩
  · exact metadata_errors_propagate.1 ctx0 tT [] [] dbErrNames (Err.ioError "disk")
      (by simp [tT]) (by simp) rfl
  · exact metadata_errors_propagate.2.1 ctx0 tT dbT dbErrTriggers (Err.ioError "trigload")
      (by simp [tT])
      ⟨[], "t", [], rfl, by decide, by simp, by simp⟩
      ⟨[], rfl, by simp⟩
      ⟨[], rfl, by simp⟩
      rfl
  · exact metadata_errors_propagate.2.2.1 ctxSales ⟨[dbSales]⟩ "sales"
      (Node.resolvedTable tOrders) false
      (Err.truncateReferencedFromForeignKey "orders" "fk1" "order_items") (by decide)
  · exact metadata_errors_propagate.2.2.2.1 ctx0 ⟨[dbErrLookup]⟩ tT "look"
      (Err.ioError "fetch") (by simp [tT]) (by decide) (by decide) (by decide)
  · exact metadata_errors_propagate.2.2.2.2.1 ctxSales ⟨[dbSales]⟩ "sales" tOrders
      (Err.truncateReferencedFromForeignKey "orders" "fk1" "order_items") (by decide)
  · exact metadata_errors_propagate.2.2.2.2.2 ctx0 "look1" tT dbErrLookup1 "u"
      (Err.ioError "fetch") (by decide) rfl (by decide) (by decide)

end GMS
